import Mathlib

/-!
Shallow embedding of `src/main.cpp` of the `forg` file-organizer CLI, together
with theorems settling the specification claims about it.

Modelling conventions:
* C++ `std::string` is modelled by `String` (character lists via `String.data`);
  `std::tolower`/`std::toupper` on ASCII letters are `Char.toLower`/`Char.toUpper`.
* The filesystem seen by the program is a finite tree of named entries
  (`Entry`); a directory carries a `readable` flag modelling whether iterating
  it throws `filesystem_error` (caught in `collectFiles`, line 349).
* `fs::rename` failures (permissions, cross-device, ...) are external events;
  they are modelled by an oracle `moveFails` passed to the run.
* Machine integers (`int depth`, the loop counter) are modelled by `Int`/`Nat`;
  no arithmetic in the program can overflow on realistic inputs, and
  `std::stoi` range checking is modelled explicitly in `stoiOpt`.
-/

namespace Forg

/-- The `(category, extensions)` pairs exactly as written in the initializer of
`FILE_CATEGORIES` in `src/main.cpp` lines 52-62 (textual order). -/
def FILE_CATEGORIES_INIT : List (String × List String) :=
  [("Images", ["jpg", "jpeg", "png", "gif", "bmp", "tiff", "svg", "webp", "ico", "psd", "ai", "eps"]),
   ("Videos", ["mp4", "mkv", "avi", "mov", "wmv", "flv", "webm", "m4v", "mpeg", "mpg", "3gp", "rmvb"]),
   ("Audio", ["mp3", "wav", "flac", "aac", "ogg", "m4a", "wma", "aiff", "mid", "midi"]),
   ("Documents", ["pdf", "doc", "docx", "txt", "rtf", "odt", "xls", "xlsx", "ppt", "pptx", "csv", "md", "markdown", "log"]),
   ("Archives", ["zip", "rar", "7z", "tar", "gz", "bz2", "xz", "iso", "dmg", "pkg", "deb", "rpm"]),
   ("Code", ["cpp", "c", "h", "hpp", "py", "js", "ts", "html", "htm", "css", "scss", "java", "go", "rs", "rb", "php", "swift", "kt", "scala", "sh", "bash", "json", "xml", "yaml", "yml", "toml", "ini", "cfg", "conf"]),
   ("Executables", ["exe", "app", "bin", "msi", "run", "elf", "so", "dll", "dylib"]),
   ("Database", ["sql", "db", "sqlite", "mdb", "accdb", "frm", "ibd"]),
   ("Books", ["epub", "mobi", "azw", "azw3", "fb2", "djvu", "chm"])]

/-- `FILE_CATEGORIES` in `src/main.cpp` is a `std::map<std::string, ...>`, so
iterating it (as `getCategory` at line 115 and `printHelp` do) visits the pairs
in sorted key order, not in initializer order.  This is `FILE_CATEGORIES_INIT`
listed in that iteration order. -/
def FILE_CATEGORIES : List (String × List String) :=
  [("Archives", ["zip", "rar", "7z", "tar", "gz", "bz2", "xz", "iso", "dmg", "pkg", "deb", "rpm"]),
   ("Audio", ["mp3", "wav", "flac", "aac", "ogg", "m4a", "wma", "aiff", "mid", "midi"]),
   ("Books", ["epub", "mobi", "azw", "azw3", "fb2", "djvu", "chm"]),
   ("Code", ["cpp", "c", "h", "hpp", "py", "js", "ts", "html", "htm", "css", "scss", "java", "go", "rs", "rb", "php", "swift", "kt", "scala", "sh", "bash", "json", "xml", "yaml", "yml", "toml", "ini", "cfg", "conf"]),
   ("Database", ["sql", "db", "sqlite", "mdb", "accdb", "frm", "ibd"]),
   ("Documents", ["pdf", "doc", "docx", "txt", "rtf", "odt", "xls", "xlsx", "ppt", "pptx", "csv", "md", "markdown", "log"]),
   ("Executables", ["exe", "app", "bin", "msi", "run", "elf", "so", "dll", "dylib"]),
   ("Images", ["jpg", "jpeg", "png", "gif", "bmp", "tiff", "svg", "webp", "ico", "psd", "ai", "eps"]),
   ("Videos", ["mp4", "mkv", "avi", "mov", "wmv", "flv", "webm", "m4v", "mpeg", "mpg", "3gp", "rmvb"])]

/-- Sanity anchor: the iteration-order list is a permutation of the initializer
list, with the keys in sorted order (as `std::map` guarantees). -/
theorem FILE_CATEGORIES_perm_sorted :
    FILE_CATEGORIES.Perm FILE_CATEGORIES_INIT ∧
      FILE_CATEGORIES.map Prod.fst =
        ["Archives", "Audio", "Books", "Code", "Database", "Documents",
         "Executables", "Images", "Videos"] := by
  constructor
  · decide
  · rfl

/-- `SKIP_PATTERNS` from `src/main.cpp` lines 65-74. -/
def SKIP_PATTERNS : List String :=
  [".git", ".svn", ".hg", ".bzr",
   ".vscode", ".idea", ".vs",
   "build", "dist", "node_modules", ".cache", "__pycache__",
   ".DS_Store", "Thumbs.db", ".Spotlight-V100", ".Trashes"]

/-- `toLowerCase` from `src/main.cpp` lines 89-94: lowercase every character
(`std::tolower`, ASCII). -/
def toLowerCase (s : String) : String := String.mk (s.data.map Char.toLower)

/-- Position of the last `'.'` in a character list: `some (pre, post)` means the
list is `pre ++ '.' :: post` with no `'.'` in `post`; `none` means there is no
`'.'` at all.  This models `std::string::rfind('.')`. -/
def lastDotSplit : List Char → Option (List Char × List Char)
  | [] => none
  | c :: cs =>
    match lastDotSplit cs with
    | some (pre, post) => some (c :: pre, post)
    | none => if c = '.' then some ([], cs) else none

/-- `getFileExtension` from `src/main.cpp` lines 99-105: the lowercased
substring after the last `'.'`; empty when there is no `'.'`
(`rfind` returns `npos`) or the `'.'` is the final character
(`dotPos == filename.length() - 1`). -/
def getFileExtension (filename : String) : String :=
  match lastDotSplit filename.data with
  | none => ""
  | some (_, post) => if post = [] then "" else toLowerCase (String.mk post)

/-- `getCategory` from `src/main.cpp` lines 110-122: empty extension maps to
`"Others"`; otherwise the first pair of the iterated `FILE_CATEGORIES` map
whose extension vector contains the extension; `"Others"` when none does. -/
def getCategory (extension : String) : String :=
  if extension = "" then "Others"
  else
    match FILE_CATEGORIES.find? (fun p => p.2.contains extension) with
    | some p => p.1
    | none => "Others"

/-- The classifier of the spec: `classify(filename)` is
`getCategory(getFileExtension(filename))`, exactly as composed at
`src/main.cpp` lines 343-344 and 416-417. -/
def classify (filename : String) : String := getCategory (getFileExtension filename)

/-- `shouldSkip` from `src/main.cpp` lines 127-143: skip names starting with a
dot and names in `SKIP_PATTERNS`. -/
def shouldSkip (name : String) : Bool :=
  (match name.data with
   | c :: _ => c = '.'
   | [] => false) ||
  SKIP_PATTERNS.contains name

/-- The base/extension split used by `getUniquePath` (`src/main.cpp` lines
156-165): the last `'.'` separates base from extension only when it is neither
absent nor at position 0; the extension keeps its dot. -/
def splitBaseExt (filename : String) : String × String :=
  match lastDotSplit filename.data with
  | some (pre, post) =>
    if pre = [] then (filename, "") else (String.mk pre, String.mk ('.' :: post))
  | none => (filename, "")

/-- `baseName + "_" + std::to_string(n) + extension`
(`src/main.cpp` lines 169 and 183). -/
def numSuffixName (base ext : String) (n : Nat) : String :=
  base ++ "_" ++ String.mk (Nat.toDigits 10 n) ++ ext

/-- The `while (true)` loop of `getUniquePath` (`src/main.cpp` lines 167-186),
with the counter made explicit and the `counter > 1000` cutoff expressed as
fuel: the loop tries `base_counter ext`, `base_(counter+1) ext`, ... and after
exhausting the fuel returns the millisecond-timestamp name. -/
def uniqueLoop (existing : List String) (base ext : String) (timestamp : Nat) :
    Nat → Nat → String
  | _, 0 => numSuffixName base ext timestamp
  | counter, fuel + 1 =>
    let newName := numSuffixName base ext counter
    if newName ∈ existing then uniqueLoop existing base ext timestamp (counter + 1) fuel
    else newName

/-- `getUniquePath` from `src/main.cpp` lines 148-187.  The target directory's
contents are abstracted to the list `existing` of entry names it holds
(`fs::exists(dir / name)` is membership of `name` in it); the returned path is
abstracted to its filename component.  The counter runs from 1 and gives up
after 1000 attempts (`counter > 1000`), falling back to the timestamp name. -/
def getUniquePath (existing : List String) (filename : String) (timestamp : Nat) : String :=
  if filename ∈ existing then
    let be := splitBaseExt filename
    uniqueLoop existing be.1 be.2 timestamp 1 1000
  else filename

/-- `Config` from `src/main.cpp` lines 76-84 (the C++ field `prefix` is named
`pfx` here). -/
structure Config where
  pfx : String := ""
  verbose : Bool := false
  dryRun : Bool := false
  recursive : Bool := false
  depth : Int := 1
  showHelp : Bool := false
  showVersion : Bool := false
deriving DecidableEq

/-- A character `std::isspace` accepts in the default locale. -/
def isSpaceCh (c : Char) : Bool :=
  c == ' ' || c == '\t' || c == '\n' || c == '\x0b' || c == '\x0c' || c == '\r'

/-- An ASCII decimal digit. -/
def isDigitCh (c : Char) : Bool := '0' ≤ c && c ≤ '9'

/-- Decimal value of a digit list. -/
def digitsToNat (ds : List Char) : Nat :=
  ds.foldl (fun acc c => 10 * acc + (c.toNat - '0'.toNat)) 0

/-- `std::stoi` (as called at `src/main.cpp` line 274), returning `none` where
it would throw: after optional whitespace and an optional sign there must be at
least one digit (`std::invalid_argument`), and the value must fit in `int`
(`std::out_of_range`).  Trailing non-digit characters are ignored. -/
def stoiOpt (s : String) : Option Int :=
  let cs := s.data.dropWhile isSpaceCh
  let signed : Bool × List Char :=
    match cs with
    | '-' :: rest => (true, rest)
    | '+' :: rest => (false, rest)
    | _ => (false, cs)
  let ds := signed.2.takeWhile isDigitCh
  if ds = [] then none
  else
    let v : Int := if signed.1 then -(digitsToNat ds : Int) else (digitsToNat ds : Int)
    if v < -2147483648 ∨ 2147483647 < v then none else some v

/-- The argument loop of `parseArguments` (`src/main.cpp` lines 256-292) as a
recursion over the remaining argument list, threading the `Config` being
built.  Faithful details: a `-d` or `--depth` flag is only treated as such
when a next token exists; on `std::stoi` failure the `catch` block performs an
extra `i++`, so the token after the bad value is skipped as well; a value `< 1`
resets the depth to 1; any unrecognized token (including `-d` or `-p` without a
following token) only warns and continues. -/
def parseLoop (cfg : Config) (args : List String) : Config :=
  match args with
  | [] => cfg
  | arg :: rest =>
    if arg = "-h" ∨ arg = "--help" then parseLoop { cfg with showHelp := true } rest
    else if arg = "--version" then parseLoop { cfg with showVersion := true } rest
    else if arg = "-v" ∨ arg = "--verbose" then parseLoop { cfg with verbose := true } rest
    else if arg = "-n" ∨ arg = "--dry-run" then parseLoop { cfg with dryRun := true } rest
    else if arg = "-r" ∨ arg = "--recursive" then parseLoop { cfg with recursive := true } rest
    else if (arg = "-d" ∨ arg = "--depth") ∧ rest ≠ [] then
      match rest with
      | [] => cfg
      | v :: rest2 =>
        match stoiOpt v with
        | some depthVal =>
          if depthVal < 1 then parseLoop { cfg with depth := 1 } rest2
          else parseLoop { cfg with depth := depthVal } rest2
        | none =>
          match rest2 with
          | [] => cfg
          | _ :: rest3 => parseLoop cfg rest3
    else if (arg = "-p" ∨ arg = "--prefix") ∧ rest ≠ [] then
      match rest with
      | [] => cfg
      | v :: rest2 => parseLoop { cfg with pfx := v } rest2
    else parseLoop cfg rest

/-- `parseArguments` from `src/main.cpp` lines 256-292, on the argument list
after `argv[0]`. -/
def parseArguments (args : List String) : Config := parseLoop {} args

/-- A filesystem entry as the program observes it: a regular file or a
directory with children.  `readable = false` models a directory whose
`fs::directory_iterator` throws `filesystem_error` (caught at
`src/main.cpp` line 349). -/
inductive Entry where
  | file (name : String)
  | dir (name : String) (readable : Bool) (children : List Entry)

/-- The `(entry.path(), category)` pair pushed at `src/main.cpp` lines 346 and
419, with the path split into the directory components below the working
directory and the filename. -/
structure PendingMove where
  dirPath : List String
  filename : String
  category : String
deriving DecidableEq

/-- `collectFiles` from `src/main.cpp` lines 297-352, recursing over the
entries of one directory.  Returns the pending moves in traversal order
together with the number of traversal errors (directories whose iteration
threw, line 349-351).  Descending into a child directory replays the callee's
`currentDepth > maxDepth` guard (line 301) and its `try` (hence the `readable`
check); recursion into children happens only when
`config.recursive && currentDepth < maxDepth` (line 317). -/
def collectFiles (cfg : Config) (progName : String) (dirPath : List String)
    (currentDepth : Int) (entries : List Entry) : List PendingMove × Nat :=
  match entries with
  | [] => ([], 0)
  | .dir name readable children :: rest =>
    let tailRes := collectFiles cfg progName dirPath currentDepth rest
    if shouldSkip name then tailRes
    else if cfg.recursive ∧ currentDepth < cfg.depth then
      let sub :=
        if currentDepth + 1 > cfg.depth then ([], 0)
        else if readable then
          collectFiles cfg progName (dirPath ++ [name]) (currentDepth + 1) children
        else ([], 1)
      (sub.1 ++ tailRes.1, sub.2 + tailRes.2)
    else tailRes
  | .file name :: rest =>
    let tailRes := collectFiles cfg progName dirPath currentDepth rest
    if name = progName ∨ name = "forg" then tailRes
    else if shouldSkip name then tailRes
    else (⟨dirPath, name, classify name⟩ :: tailRes.1, tailRes.2)

/-- The root call `collectFiles(currentDir, 1, config.depth, ...)` at
`src/main.cpp` line 386, including the callee's initial depth guard.  The
working directory itself is the entry list `root`. -/
def collectRoot (cfg : Config) (progName : String) (root : List Entry) :
    List PendingMove × Nat :=
  if 1 > cfg.depth then ([], 0) else collectFiles cfg progName [] 1 root

/-- The non-recursive top-level scan of `organizeFiles`
(`src/main.cpp` lines 389-421): directories are skipped outright, the program
file and skip-rule files are excluded, everything else becomes a pending
move. -/
def collectTopLevel (progName : String) (root : List Entry) : List PendingMove :=
  match root with
  | [] => []
  | .dir _ _ _ :: rest => collectTopLevel progName rest
  | .file name :: rest =>
    if name = progName ∨ name = "forg" then collectTopLevel progName rest
    else if shouldSkip name then collectTopLevel progName rest
    else ⟨[], name, classify name⟩ :: collectTopLevel progName rest

/-- Name of an entry (`path.filename()`). -/
def entryName : Entry → String
  | .file n => n
  | .dir n _ _ => n

/-- First entry with the given name among the working directory's entries. -/
def findTop (es : List Entry) (name : String) : Option Entry :=
  es.find? (fun e => entryName e == name)

/-- `fs::create_directories(currentDir / folder)` (`src/main.cpp` line 440):
succeeds (a no-op) when the folder already exists as a directory, throws when
the name is taken by a regular file (`none`), otherwise creates the empty
directory. -/
def createDirTop (es : List Entry) (folder : String) : Option (List Entry) :=
  match findTop es folder with
  | some (.dir _ _ _) => some es
  | some (.file _) => none
  | none => some (es ++ [.dir folder true []])

/-- The names present in the top-level folder `folder`, i.e. the set that
`fs::exists(targetDir / name)` consults inside `getUniquePath`; empty when the
folder is missing or is not a directory. -/
def contentsOfTop (es : List Entry) (folder : String) : List String :=
  match findTop es folder with
  | some (.dir _ _ children) => children.map entryName
  | _ => []

/-- Remove the first regular file with the given name from an entry list. -/
def removeFirstFile (es : List Entry) (name : String) : List Entry :=
  match es with
  | [] => []
  | .file m :: rest => if m = name then rest else .file m :: removeFirstFile rest name
  | e :: rest => e :: removeFirstFile rest name

/-- Remove the file `dirPath / name` from the tree (the source side of
`fs::rename`, `src/main.cpp` line 460). -/
def removeFileAt (dirPath : List String) (name : String) (es : List Entry) : List Entry :=
  match dirPath with
  | [] => removeFirstFile es name
  | d :: ds =>
    es.map (fun e =>
      match e with
      | .dir m r ch => if m = d then .dir m r (removeFileAt ds name ch) else .dir m r ch
      | .file m => .file m)

/-- Add a file named `name` to the top-level directory `folder` (the
destination side of `fs::rename`). -/
def addFileTop (es : List Entry) (folder : String) (name : String) : List Entry :=
  match es with
  | [] => []
  | .dir m r ch :: rest =>
    if m = folder then .dir m r (ch ++ [.file name]) :: rest
    else .dir m r ch :: addFileTop rest folder name
  | e :: rest => e :: addFileTop rest folder name

/-- The per-file loop of `organizeFiles` (`src/main.cpp` lines 429-472):
destination folder `prefix + category` under the working directory, directory
creation and unique-name resolution, then the move — all skipped except for
the printout when `dryRun` is set.  `moveFails` is the oracle for
`fs::rename` throwing (line 462); both creation and move failures add to the
error count and `continue`. -/
def processMoves (cfg : Config) (moveFails : List String → Bool) (timestamp : Nat)
    (pending : List PendingMove) (root : List Entry) : List Entry × Nat :=
  match pending with
  | [] => (root, 0)
  | pm :: rest =>
    let folderName := if cfg.pfx = "" then pm.category else cfg.pfx ++ pm.category
    if cfg.dryRun then processMoves cfg moveFails timestamp rest root
    else
      match createDirTop root folderName with
      | none =>
        let r := processMoves cfg moveFails timestamp rest root
        (r.1, r.2 + 1)
      | some root1 =>
        let targetName := getUniquePath (contentsOfTop root1 folderName) pm.filename timestamp
        if moveFails (pm.dirPath ++ [pm.filename]) then
          let r := processMoves cfg moveFails timestamp rest root1
          (r.1, r.2 + 1)
        else
          processMoves cfg moveFails timestamp rest
            (addFileTop (removeFileAt pm.dirPath pm.filename root1) folderName targetName)

/-- Outcome of a run: final working-directory contents, the process exit code,
and the two error tallies (traversal errors are only printed, lines 349-351;
`errorCount` collects creation and move errors, lines 443 and 464). -/
structure RunResult where
  fs : List Entry
  exitCode : Nat
  travErrors : Nat
  moveErrors : Nat

/-- `organizeFiles` from `src/main.cpp` lines 357-501: collect (recursively or
top-level), return 0 early when nothing is to move (line 423-426), otherwise
process the moves and exit 1 exactly when `errorCount > 0` (lines 494-500). -/
def organizeFiles (cfg : Config) (progName : String) (moveFails : List String → Bool)
    (timestamp : Nat) (root : List Entry) : RunResult :=
  let collected :=
    if cfg.recursive then collectRoot cfg progName root
    else (collectTopLevel progName root, 0)
  if collected.1 = [] then ⟨root, 0, collected.2, 0⟩
  else
    let moved := processMoves cfg moveFails timestamp collected.1 root
    ⟨moved.1, if moved.2 > 0 then 1 else 0, collected.2, moved.2⟩

/-- `main` from `src/main.cpp` lines 503-521: parse, short-circuit on help and
version with exit 0, otherwise run `organizeFiles`. -/
def mainRun (args : List String) (progName : String) (moveFails : List String → Bool)
    (timestamp : Nat) (root : List Entry) : RunResult :=
  let cfg := parseArguments args
  if cfg.showHelp then ⟨root, 0, 0, 0⟩
  else if cfg.showVersion then ⟨root, 0, 0, 0⟩
  else organizeFiles cfg progName moveFails timestamp root

/-- Whether a regular file exists at the given path below the working
directory. -/
def fileExistsAt : List String → List Entry → Bool
  | [], _ => false
  | [n], es =>
    es.any (fun e =>
      match e with
      | .file m => m == n
      | .dir _ _ _ => false)
  | n :: p, es =>
    es.any (fun e =>
      match e with
      | .dir m _ ch => m == n && fileExistsAt p ch
      | .file _ => false)

/-!  ## Classifier lemmas (claims C2, C3)  -/

/-- Modelled from the spec: the category lookup "iterates the table in
definition order with first match winning", i.e. the same lookup as
`getCategory` but over the `(category, extension-set)` pairs in the order the
initializer writes them.  Used only to compare against `getCategory`. -/
def getCategoryInitOrder (extension : String) : String :=
  if extension = "" then "Others"
  else
    match FILE_CATEGORIES_INIT.find? (fun p => p.2.contains extension) with
    | some p => p.1
    | none => "Others"

/-- An upper-cased variant of an extension (`std::toupper` on every
character). -/
def upperVariant (s : String) : String := String.mk (s.data.map Char.toUpper)

theorem lastDotSplit_of_not_mem {cs : List Char} (h : '.' ∉ cs) :
    lastDotSplit cs = none := by
  induction cs with
  | nil => rfl
  | cons c cs ih =>
    simp only [List.mem_cons, not_or] at h
    simp [lastDotSplit, ih h.2, h.1, Ne.symm h.1]

theorem lastDotSplit_append {pre post : List Char} (h : '.' ∉ post) :
    lastDotSplit (pre ++ '.' :: post) = some (pre, post) := by
  induction pre with
  | nil => simp [lastDotSplit, lastDotSplit_of_not_mem h]
  | cons c pre ih => simp [lastDotSplit, ih]

theorem getFileExtension_of_no_dot {s : String} (h : '.' ∉ s.data) :
    getFileExtension s = "" := by
  simp [getFileExtension, lastDotSplit_of_not_mem h]

theorem getFileExtension_append {pre post : List Char} (h : '.' ∉ post) :
    getFileExtension (String.mk (pre ++ '.' :: post)) = toLowerCase (String.mk post) := by
  have hsplit : lastDotSplit (String.mk (pre ++ '.' :: post)).data = some (pre, post) :=
    lastDotSplit_append h
  rw [getFileExtension, hsplit]
  rcases post with _ | ⟨c, cs⟩
  · simp [toLowerCase]
  · simp

/-- Where a category pair holding the extension exists, the `std::map`-order
search finds exactly that pair, provided the extension sets are pairwise
disjoint along the list. -/
theorem find?_eq_some_of_mem {t : List (String × List String)}
    {p : String × List String} {ext : String}
    (hpw : t.Pairwise (fun a b => ∀ e ∈ a.2, e ∉ b.2))
    (hp : p ∈ t) (hext : ext ∈ p.2) :
    t.find? (fun q => q.2.contains ext) = some p := by
  induction t with
  | nil => cases hp
  | cons hd tl ih =>
    rw [List.pairwise_cons] at hpw
    rcases List.mem_cons.mp hp with rfl | hmem
    · rw [List.find?_cons_of_pos]
      simpa using hext
    · have hne : ext ∉ hd.2 := fun hc => hpw.1 p hmem ext hc hext
      rw [List.find?_cons_of_neg]
      · exact ih hpw.2 hmem
      · simpa using hne

theorem find?_eq_none_of_not_mem {t : List (String × List String)} {ext : String}
    (h : ∀ p ∈ t, ext ∉ p.2) :
    t.find? (fun q => q.2.contains ext) = none := by
  rw [List.find?_eq_none]
  intro p hp
  simpa using h p hp

/-- The extension sets of the category table are pairwise disjoint (no
extension is claimed by two categories), in both iteration orders, and no
table extension is empty, contains a dot, or differs from its lowercase
form. -/
theorem FILE_CATEGORIES_facts :
    FILE_CATEGORIES.Pairwise (fun a b => ∀ e ∈ a.2, e ∉ b.2) ∧
      FILE_CATEGORIES_INIT.Pairwise (fun a b => ∀ e ∈ a.2, e ∉ b.2) ∧
      (∀ p ∈ FILE_CATEGORIES, ∀ e ∈ p.2,
        e ≠ "" ∧ '.' ∉ e.data ∧ toLowerCase e = e ∧
          toLowerCase (upperVariant e) = e ∧ '.' ∉ (upperVariant e).data) := by
  refine ⟨by decide, by decide, by decide⟩

theorem getCategory_of_mem {p : String × List String} {e : String}
    (hp : p ∈ FILE_CATEGORIES) (he : e ∈ p.2) : getCategory e = p.1 := by
  have hfacts := (FILE_CATEGORIES_facts.2.2 p hp e he).1
  rw [getCategory, if_neg hfacts, find?_eq_some_of_mem FILE_CATEGORIES_facts.1 hp he]

theorem getCategory_of_forall_not_mem {ext : String} (h0 : ext ≠ "")
    (h : ∀ p ∈ FILE_CATEGORIES, ext ∉ p.2) : getCategory ext = "Others" := by
  rw [getCategory, if_neg h0, find?_eq_none_of_not_mem h]

/-- C2: `classify` extracts the substring after the last `'.'` and case-folds
it; the extension is empty when there is no `'.'` or the `'.'` is final;
a table extension yields its category (also in upper-case variants), an empty
or unknown extension yields `"Others"`; `classify "f"` and `classify "f."`
return `"Others"`. -/
theorem c2_classify_extension_table :
    (∀ s : String, '.' ∉ s.data → classify s = "Others") ∧
      (∀ pre : List Char, classify (String.mk (pre ++ ['.'])) = "Others") ∧
      (∀ pre post : List Char, '.' ∉ post →
        getFileExtension (String.mk (pre ++ '.' :: post)) = toLowerCase (String.mk post)) ∧
      (∀ p ∈ FILE_CATEGORIES, ∀ e ∈ p.2, getCategory e = p.1) ∧
      (∀ ext : String, ext ≠ "" → (∀ p ∈ FILE_CATEGORIES, ext ∉ p.2) →
        getCategory ext = "Others") ∧
      (∀ s : String, getFileExtension s = "" → classify s = "Others") ∧
      classify "f" = "Others" ∧ classify "f." = "Others" ∧
      (∀ p ∈ FILE_CATEGORIES, ∀ e ∈ p.2, ∀ pre : List Char,
        classify (String.mk (pre ++ '.' :: e.data)) = p.1 ∧
        classify (String.mk (pre ++ '.' :: (upperVariant e).data)) = p.1) := by
  refine ⟨?_, ?_, ?_, ?_, ?_, ?_, by decide, by decide, ?_⟩
  · intro s h
    simp [classify, getFileExtension_of_no_dot h, getCategory]
  · intro pre
    have h := @getFileExtension_append pre [] (by simp)
    simp only [classify, h]
    simp [toLowerCase, getCategory]
  · intro pre post h
    exact getFileExtension_append h
  · intro p hp e he
    exact getCategory_of_mem hp he
  · intro ext h0 h
    exact getCategory_of_forall_not_mem h0 h
  · intro s h
    simp [classify, h, getCategory]
  · intro p hp e he pre
    obtain ⟨hne, hnd, hlow, hlowup, hndup⟩ := FILE_CATEGORIES_facts.2.2 p hp e he
    constructor
    · rw [classify, getFileExtension_append hnd]
      rw [show String.mk e.data = e from rfl, hlow]
      exact getCategory_of_mem hp he
    · rw [classify, getFileExtension_append hndup]
      rw [show String.mk (upperVariant e).data = upperVariant e from rfl, hlowup]
      exact getCategory_of_mem hp he

/-- Witness for C2 at concrete inputs. -/
theorem c2_classify_extension_table_witness :
    classify "f" = "Others" ∧
      classify (String.mk (['p', 'h', 'o', 't', 'o'] ++ '.' :: (upperVariant "jpg").data)) =
        "Images" := by
  refine ⟨c2_classify_extension_table.2.2.2.2.2.2.1, ?_⟩
  exact (c2_classify_extension_table.2.2.2.2.2.2.2.2
    ("Images", ["jpg", "jpeg", "png", "gif", "bmp", "tiff", "svg", "webp", "ico", "psd", "ai", "eps"])
    (by decide) "jpg" (by decide) ['p', 'h', 'o', 't', 'o']).2

/-- C3: when the extension lookup is compared against the spec's
definition-order first-match lookup, the two agree on every extension (the
`std::map` iterates in sorted key order, but the extension sets are pairwise
disjoint, so the first — indeed only — match is the same pair in either
order); hence `classify` behaves as a definition-order first-match lookup. -/
theorem c3_first_match_table_order :
    (∀ ext : String, getCategory ext = getCategoryInitOrder ext) ∧
      (∀ filename : String,
        classify filename = getCategoryInitOrder (getFileExtension filename)) := by
  have main : ∀ ext : String, getCategory ext = getCategoryInitOrder ext := by
    intro ext
    by_cases h0 : ext = ""
    · simp [getCategory, getCategoryInitOrder, h0]
    · by_cases hex : ∃ p ∈ FILE_CATEGORIES, ext ∈ p.2
      · obtain ⟨p, hp, hm⟩ := hex
        have hp' : p ∈ FILE_CATEGORIES_INIT := FILE_CATEGORIES_perm_sorted.1.mem_iff.mp hp
        rw [getCategory, getCategoryInitOrder, if_neg h0, if_neg h0,
          find?_eq_some_of_mem FILE_CATEGORIES_facts.1 hp hm,
          find?_eq_some_of_mem FILE_CATEGORIES_facts.2.1 hp' hm]
      · push_neg at hex
        rw [getCategory, getCategoryInitOrder, if_neg h0, if_neg h0,
          find?_eq_none_of_not_mem hex,
          find?_eq_none_of_not_mem
            (fun p hp => hex p (FILE_CATEGORIES_perm_sorted.1.mem_iff.mpr hp))]
  exact ⟨main, fun filename => main (getFileExtension filename)⟩

/-!  ## Collision-resolution lemmas (claims C4, C5)  -/

theorem uniqueLoop_of_all_taken {existing : List String} {base ext : String}
    {timestamp : Nat} :
    ∀ fuel counter : Nat,
      (∀ j, counter ≤ j → j < counter + fuel → numSuffixName base ext j ∈ existing) →
      uniqueLoop existing base ext timestamp counter fuel =
        numSuffixName base ext timestamp := by
  intro fuel
  induction fuel with
  | zero => intro counter _; rfl
  | succ fuel ih =>
    intro counter h
    have hmem : numSuffixName base ext counter ∈ existing :=
      h counter (Nat.le_refl _) (by omega)
    simp only [uniqueLoop, if_pos hmem]
    exact ih (counter + 1) (fun j h1 h2 => h j (by omega) (by omega))

theorem uniqueLoop_finds_first {existing : List String} {base ext : String}
    {timestamp : Nat} :
    ∀ fuel counter k : Nat,
      counter ≤ k → k < counter + fuel →
      numSuffixName base ext k ∉ existing →
      (∀ j, counter ≤ j → j < k → numSuffixName base ext j ∈ existing) →
      uniqueLoop existing base ext timestamp counter fuel = numSuffixName base ext k := by
  intro fuel
  induction fuel with
  | zero => intro counter k h1 h2; omega
  | succ fuel ih =>
    intro counter k h1 h2 hfree htaken
    rcases Nat.eq_or_lt_of_le h1 with rfl | hlt
    · simp only [uniqueLoop, if_neg hfree]
    · have hmem : numSuffixName base ext counter ∈ existing :=
        htaken counter (Nat.le_refl _) hlt
      simp only [uniqueLoop, if_pos hmem]
      exact ih (counter + 1) k hlt (by omega) hfree
        (fun j hj1 hj2 => htaken j (by omega) hj2)

theorem uniqueLoop_cases {existing : List String} {base ext : String}
    {timestamp : Nat} :
    ∀ fuel counter : Nat,
      uniqueLoop existing base ext timestamp counter fuel =
          numSuffixName base ext timestamp ∨
        ∃ k, counter ≤ k ∧ k < counter + fuel ∧
          uniqueLoop existing base ext timestamp counter fuel =
            numSuffixName base ext k ∧
          numSuffixName base ext k ∉ existing := by
  intro fuel
  induction fuel with
  | zero => intro counter; exact Or.inl rfl
  | succ fuel ih =>
    intro counter
    by_cases hmem : numSuffixName base ext counter ∈ existing
    · simp only [uniqueLoop, if_pos hmem]
      rcases ih (counter + 1) with h | ⟨k, h1, h2, h3, h4⟩
      · exact Or.inl h
      · exact Or.inr ⟨k, by omega, by omega, h3, h4⟩
    · simp only [uniqueLoop, if_neg hmem]
      exact Or.inr ⟨counter, Nat.le_refl _, by omega, rfl, hmem⟩

/-- C5: the unique-name computation is total and tries at most the numeric
suffixes 1..1000 before falling back to the timestamp name: its result is the
original name (when free), a free numeric-suffix name with suffix between 1
and 1000, or the millisecond-timestamp fallback name. -/
theorem c5_unique_name_terminates
    (existing : List String) (filename : String) (timestamp : Nat) :
    getUniquePath existing filename timestamp = filename ∨
      (∃ k, 1 ≤ k ∧ k ≤ 1000 ∧
        getUniquePath existing filename timestamp =
          numSuffixName (splitBaseExt filename).1 (splitBaseExt filename).2 k ∧
        numSuffixName (splitBaseExt filename).1 (splitBaseExt filename).2 k ∉ existing) ∨
      getUniquePath existing filename timestamp =
        numSuffixName (splitBaseExt filename).1 (splitBaseExt filename).2 timestamp := by
  by_cases hmem : filename ∈ existing
  · rw [getUniquePath, if_pos hmem]
    rcases @uniqueLoop_cases existing (splitBaseExt filename).1
        (splitBaseExt filename).2 timestamp 1000 1 with h | ⟨k, h1, h2, h3, h4⟩
    · exact Or.inr (Or.inr h)
    · exact Or.inr (Or.inl ⟨k, h1, by omega, h3, h4⟩)
  · exact Or.inl (by rw [getUniquePath, if_neg hmem])

/-- C4 (amended): collision resolution returns the original name when free,
and otherwise the name with the smallest positive numeric suffix that is free,
provided that smallest free suffix is at most 1000 (beyond that the code
falls back to the timestamp name, see the counterexample). -/
theorem c4_collision_smallest_suffix
    (existing : List String) (filename : String) (timestamp k : Nat) :
    (filename ∉ existing → getUniquePath existing filename timestamp = filename) ∧
      (filename ∈ existing → 1 ≤ k → k ≤ 1000 →
        numSuffixName (splitBaseExt filename).1 (splitBaseExt filename).2 k ∉ existing →
        (∀ j, 1 ≤ j → j < k →
          numSuffixName (splitBaseExt filename).1 (splitBaseExt filename).2 j ∈ existing) →
        getUniquePath existing filename timestamp =
          numSuffixName (splitBaseExt filename).1 (splitBaseExt filename).2 k) := by
  constructor
  · intro hmem
    rw [getUniquePath, if_neg hmem]
  · intro hmem h1 h2 hfree htaken
    rw [getUniquePath, if_pos hmem]
    exact uniqueLoop_finds_first 1000 1 k h1 (by omega) hfree htaken

/-- Witness for C4: with `a.txt` and `a_1.txt` already present, moving another
`a.txt` yields `a_2.txt`. -/
theorem c4_collision_smallest_suffix_witness :
    getUniquePath ["a.txt", "a_1.txt"] "a.txt" 99 = "a_2.txt" := by
  have h := (c4_collision_smallest_suffix ["a.txt", "a_1.txt"] "a.txt" 99 2).2
    (by decide) (by decide) (by decide) (by decide)
    (fun j h1 h2 => by
      have hj : j = 1 := by omega
      subst hj
      decide)
  rw [h]
  decide

/-- The destination-directory state on which the literal reading of C4 fails:
the original plus the numeric-suffix names 1..1000 all taken. -/
def fullSuffixRange : List String :=
  "a.txt" :: (List.range 1000).map (fun i => numSuffixName "a" ".txt" (i + 1))

theorem mem_fullSuffixRange {j : Nat} (h1 : 1 ≤ j) (h2 : j ≤ 1000) :
    numSuffixName "a" ".txt" j ∈ fullSuffixRange := by
  refine List.mem_cons_of_mem _ (List.mem_map.mpr ⟨j - 1, List.mem_range.mpr (by omega), ?_⟩)
  congr 1
  omega

set_option maxRecDepth 40000 in
/-- Counterexample for C4 as stated: when the suffixes 1..1000 are all taken,
the smallest free positive numeric suffix is 1001, but `getUniquePath` returns
the timestamp name instead. -/
theorem c4_collision_smallest_suffix_counterexample :
    ¬ (∀ (existing : List String) (filename : String) (timestamp k : Nat),
        filename ∈ existing → 1 ≤ k →
        numSuffixName (splitBaseExt filename).1 (splitBaseExt filename).2 k ∉ existing →
        (∀ j, 1 ≤ j → j < k →
          numSuffixName (splitBaseExt filename).1 (splitBaseExt filename).2 j ∈ existing) →
        getUniquePath existing filename timestamp =
          numSuffixName (splitBaseExt filename).1 (splitBaseExt filename).2 k) := by
  intro h
  have hsplit : splitBaseExt "a.txt" = ("a", ".txt") := by decide
  have hnot : numSuffixName "a" ".txt" 1001 ∉ fullSuffixRange := by decide
  have htaken : ∀ j, 1 ≤ j → j < 1001 → numSuffixName "a" ".txt" j ∈ fullSuffixRange :=
    fun j h1 h2 => mem_fullSuffixRange h1 (by omega)
  have hm : "a.txt" ∈ fullSuffixRange := List.mem_cons_self _ _
  have hclaim := h fullSuffixRange "a.txt" 42 1001 hm (by omega)
    (by rw [hsplit]; exact hnot) (by rw [hsplit]; exact htaken)
  have hcode : getUniquePath fullSuffixRange "a.txt" 42 = numSuffixName "a" ".txt" 42 := by
    rw [getUniquePath, if_pos hm, hsplit]
    exact uniqueLoop_of_all_taken 1000 1 (fun j h1 h2 => htaken j h1 (by omega))
  rw [hsplit, hcode] at hclaim
  exact absurd hclaim (by decide)

/-!  ## Argument-parser lemmas (claim C9)  -/

/-- Unfolding lemma for `parseLoop` on a cons cell (the auto-generated
equations are specialized per list shape, so this restates the definition for
a symbolic tail). -/
theorem parseLoop_cons (cfg : Config) (arg : String) (rest : List String) :
    parseLoop cfg (arg :: rest) =
      (if arg = "-h" ∨ arg = "--help" then parseLoop { cfg with showHelp := true } rest
      else if arg = "--version" then parseLoop { cfg with showVersion := true } rest
      else if arg = "-v" ∨ arg = "--verbose" then parseLoop { cfg with verbose := true } rest
      else if arg = "-n" ∨ arg = "--dry-run" then parseLoop { cfg with dryRun := true } rest
      else if arg = "-r" ∨ arg = "--recursive" then parseLoop { cfg with recursive := true } rest
      else if (arg = "-d" ∨ arg = "--depth") ∧ rest ≠ [] then
        match rest with
        | [] => cfg
        | v :: rest2 =>
          match stoiOpt v with
          | some depthVal =>
            if depthVal < 1 then parseLoop { cfg with depth := 1 } rest2
            else parseLoop { cfg with depth := depthVal } rest2
          | none =>
            match rest2 with
            | [] => cfg
            | _ :: rest3 => parseLoop cfg rest3
      else if (arg = "-p" ∨ arg = "--prefix") ∧ rest ≠ [] then
        match rest with
        | [] => cfg
        | v :: rest2 => parseLoop { cfg with pfx := v } rest2
      else parseLoop cfg rest) := by
  cases rest with
  | nil => simp [parseLoop]
  | cons v rest2 =>
    cases rest2 with
    | nil => simp [parseLoop]
    | cons w rest3 => simp [parseLoop]

theorem parseLoop_depth_ge_one :
    ∀ (cfg : Config) (args : List String), 1 ≤ cfg.depth → 1 ≤ (parseLoop cfg args).depth := by
  intro cfg args
  induction cfg, args using parseLoop.induct <;> intro h <;>
    first
      | exact h
      | (rw [parseLoop_cons]; simp_all; done)
      | (rw [parseLoop_cons]; simp_all; omega)
      | (rw [parseLoop_cons]; simp_all; rw [if_neg (by omega)]; assumption)
      | (rw [parseLoop_cons]; simp_all; split <;> (try split) <;> assumption)

/-- C9 (amended): the parser never fails fatally — every argument list yields
a `Config` (with depth always ≥ 1); a `--depth` value `< 1` warns and resets
the depth to 1; a non-integer `--depth` value warns and leaves the depth
unchanged (the default 1 only if no earlier valid `--depth` was seen), also
skipping the following token; an unrecognized flag only warns and parsing
continues. -/
theorem c9_parser_never_fatal :
    (∀ (cfg : Config) (flag v : String) (n : Int) (rest : List String),
        (flag = "-d" ∨ flag = "--depth") → stoiOpt v = some n → n < 1 →
        parseLoop cfg (flag :: v :: rest) = parseLoop { cfg with depth := 1 } rest) ∧
      (∀ (cfg : Config) (flag v : String) (rest : List String),
        (flag = "-d" ∨ flag = "--depth") → stoiOpt v = none →
        parseLoop cfg (flag :: v :: rest) = parseLoop cfg (rest.drop 1)) ∧
      (∀ (cfg : Config) (arg : String) (rest : List String),
        arg ∉ ["-h", "--help", "--version", "-v", "--verbose", "-n", "--dry-run",
               "-r", "--recursive", "-d", "--depth", "-p", "--prefix"] →
        parseLoop cfg (arg :: rest) = parseLoop cfg rest) ∧
      (∀ args : List String, 1 ≤ (parseArguments args).depth) := by
  refine ⟨?_, ?_, ?_, ?_⟩
  · intro cfg flag v n rest hflag hstoi hn
    rcases hflag with rfl | rfl <;> (rw [parseLoop_cons]; simp [hstoi, hn])
  · intro cfg flag v rest hflag hstoi
    rcases hflag with rfl | rfl <;>
      (rw [parseLoop_cons]; cases rest <;> simp [hstoi, parseLoop])
  · intro cfg arg rest harg
    simp only [List.mem_cons, List.mem_singleton, not_or] at harg
    obtain ⟨h1, h2, h3, h4, h5, h6, h7, h8, h9, h10, h11, h12, h13⟩ := harg
    rw [parseLoop_cons]
    simp [h1, h2, h3, h4, h5, h6, h7, h8, h9, h10, h11, h12, h13]
  · intro args
    exact parseLoop_depth_ge_one {} args (by decide)

/-- Witness for C9 at concrete argument lists. -/
theorem c9_parser_never_fatal_witness :
    parseLoop {} ["-d", "0", "-v"] = parseLoop { depth := 1 } ["-v"] ∧
      parseLoop {} ["-d", "xyz", "skipped", "-v"] = parseLoop {} ["-v"] ∧
      parseLoop {} ["--bogus", "-v"] = parseLoop {} ["-v"] ∧
      1 ≤ (parseArguments ["-d", "xyz"]).depth :=
  ⟨c9_parser_never_fatal.1 {} "-d" "0" 0 ["-v"] (Or.inl rfl) (by decide) (by decide),
   c9_parser_never_fatal.2.1 {} "-d" "xyz" ["skipped", "-v"] (Or.inl rfl) (by decide),
   c9_parser_never_fatal.2.2.1 {} "--bogus" ["-v"] (by decide),
   c9_parser_never_fatal.2.2.2 ["-d", "xyz"]⟩

/-- Counterexample for C9 as stated: after `-d 5`, a later non-integer depth
value leaves the depth at 5, not at "the default 1". -/
theorem c9_parser_never_fatal_counterexample :
    (parseArguments ["-d", "5", "-d", "x"]).depth ≠ 1 ∧
      (parseArguments ["-d", "5", "-d", "x"]).depth = 5 := by
  constructor <;> decide

/-!  ## Dry-run and exit-status lemmas (claims C1, C6)  -/

theorem processMoves_dryRun {cfg : Config} (h : cfg.dryRun = true)
    (moveFails : List String → Bool) (timestamp : Nat) :
    ∀ (pending : List PendingMove) (root : List Entry),
      (processMoves cfg moveFails timestamp pending root).1 = root := by
  intro pending
  induction pending with
  | nil => intro root; rfl
  | cons pm rest ih =>
    intro root
    simp only [processMoves, h, if_pos]
    exact ih root

/-- C6: with the dry-run flag set the run mutates nothing: the final
filesystem equals the initial one, for every directory state and every
combination of the remaining options (also stated at the `main` level via the
parsed argument list). -/
theorem c6_dry_run_no_mutation :
    (∀ cfg : Config, cfg.dryRun = true →
      ∀ (progName : String) (moveFails : List String → Bool) (timestamp : Nat)
        (root : List Entry),
        (organizeFiles cfg progName moveFails timestamp root).fs = root) ∧
      (∀ args : List String, (parseArguments args).dryRun = true →
        ∀ (progName : String) (moveFails : List String → Bool) (timestamp : Nat)
          (root : List Entry),
          (mainRun args progName moveFails timestamp root).fs = root) := by
  have horg : ∀ cfg : Config, cfg.dryRun = true →
      ∀ (progName : String) (moveFails : List String → Bool) (timestamp : Nat)
        (root : List Entry),
        (organizeFiles cfg progName moveFails timestamp root).fs = root := by
    intro cfg h progName moveFails timestamp root
    simp only [organizeFiles]
    split <;> split <;>
      first
        | rfl
        | exact processMoves_dryRun h moveFails timestamp _ root
  refine ⟨horg, ?_⟩
  intro args h progName moveFails timestamp root
  simp only [mainRun]
  split
  · rfl
  · split
    · rfl
    · exact horg _ h progName moveFails timestamp root

/-- Witness for C6 at a concrete dry-run configuration and tree. -/
theorem c6_dry_run_no_mutation_witness :
    (organizeFiles { dryRun := true, recursive := true, depth := 3 } "forg"
        (fun _ => false) 7
        [Entry.dir "sub" true [Entry.file "x.txt"], Entry.file "b.pdf"]).fs =
      [Entry.dir "sub" true [Entry.file "x.txt"], Entry.file "b.pdf"] :=
  c6_dry_run_no_mutation.1 { dryRun := true, recursive := true, depth := 3 } rfl
    "forg" (fun _ => false) 7
    [Entry.dir "sub" true [Entry.file "x.txt"], Entry.file "b.pdf"]

theorem organizeFiles_exitCode (cfg : Config) (progName : String)
    (moveFails : List String → Bool) (timestamp : Nat) (root : List Entry) :
    (organizeFiles cfg progName moveFails timestamp root).exitCode =
      if 0 < (organizeFiles cfg progName moveFails timestamp root).moveErrors
      then 1 else 0 := by
  simp only [organizeFiles]
  split <;> split <;> simp

/-- C1 (amended): the exit status is 1 exactly when a destination-creation or
move error occurred (traversal errors are only logged and do not influence the
exit status — see the counterexample), and help and version requests
short-circuit with exit 0 and an untouched filesystem. -/
theorem c1_exit_status :
    (∀ (args : List String) (progName : String) (moveFails : List String → Bool)
        (timestamp : Nat) (root : List Entry),
        (mainRun args progName moveFails timestamp root).exitCode =
          if 0 < (mainRun args progName moveFails timestamp root).moveErrors
          then 1 else 0) ∧
      (∀ (args : List String) (progName : String) (moveFails : List String → Bool)
          (timestamp : Nat) (root : List Entry),
          (parseArguments args).showHelp = true →
          mainRun args progName moveFails timestamp root = ⟨root, 0, 0, 0⟩) ∧
      (∀ (args : List String) (progName : String) (moveFails : List String → Bool)
          (timestamp : Nat) (root : List Entry),
          (parseArguments args).showVersion = true →
          (mainRun args progName moveFails timestamp root).exitCode = 0 ∧
            (mainRun args progName moveFails timestamp root).fs = root) := by
  refine ⟨?_, ?_, ?_⟩
  · intro args progName moveFails timestamp root
    simp only [mainRun]
    split
    · simp
    · split
      · simp
      · exact organizeFiles_exitCode _ progName moveFails timestamp root
  · intro args progName moveFails timestamp root h
    simp only [mainRun, h, if_pos]
  · intro args progName moveFails timestamp root h
    by_cases hh : (parseArguments args).showHelp = true <;> simp [mainRun, h, hh]

/-- Witness for C1 at concrete runs (a help run, a version run, and an
ordinary error-free run). -/
theorem c1_exit_status_witness :
    mainRun ["-h"] "forg" (fun _ => false) 0 [Entry.file "a.txt"] =
        ⟨[Entry.file "a.txt"], 0, 0, 0⟩ ∧
      (mainRun ["--version"] "forg" (fun _ => false) 0 [Entry.file "a.txt"]).exitCode = 0 ∧
      (mainRun [] "forg" (fun _ => false) 0 [Entry.file "a.txt"]).exitCode =
        (if 0 < (mainRun [] "forg" (fun _ => false) 0 [Entry.file "a.txt"]).moveErrors
         then 1 else 0) :=
  ⟨c1_exit_status.2.1 ["-h"] "forg" (fun _ => false) 0 [Entry.file "a.txt"] (by decide),
   (c1_exit_status.2.2 ["--version"] "forg" (fun _ => false) 0 [Entry.file "a.txt"]
      (by decide)).1,
   c1_exit_status.1 [] "forg" (fun _ => false) 0 [Entry.file "a.txt"]⟩

/-- Counterexample for C1 as stated: a run in which a traversal error occurs
(an unreadable subdirectory) but whose exit status is 0, because only
creation and move errors feed `errorCount`. -/
theorem c1_exit_status_counterexample :
    (mainRun ["-r", "-d", "2"] "forg" (fun _ => false) 0
        [Entry.dir "sub" false [], Entry.file "a.txt"]).travErrors = 1 ∧
      (mainRun ["-r", "-d", "2"] "forg" (fun _ => false) 0
        [Entry.dir "sub" false [], Entry.file "a.txt"]).exitCode = 0 := by
  constructor <;>
    simp [mainRun, organizeFiles, collectRoot, collectFiles, parseArguments, parseLoop,
      stoiOpt, isSpaceCh, isDigitCh, digitsToNat, shouldSkip, SKIP_PATTERNS, classify,
      getFileExtension, getCategory, lastDotSplit, toLowerCase, FILE_CATEGORIES,
      processMoves, createDirTop, findTop, entryName, contentsOfTop, getUniquePath,
      addFileTop, removeFileAt, removeFirstFile]

/-!  ## Skip-rule lemmas (claim C8)  -/

theorem collectFiles_skip_invariant (cfg : Config) (progName : String) :
    ∀ (dirPath : List String) (currentDepth : Int) (entries : List Entry),
      (∀ x ∈ dirPath, shouldSkip x = false) →
      ∀ pm ∈ (collectFiles cfg progName dirPath currentDepth entries).1,
        shouldSkip pm.filename = false ∧ ∀ x ∈ pm.dirPath, shouldSkip x = false := by
  intro dirPath currentDepth entries
  induction dirPath, currentDepth, entries using collectFiles.induct cfg progName with
  | case1 dp d =>
    intro hdp pm hpm
    rw [collectFiles.eq_def] at hpm
    simp at hpm
  | case2 dp d name readable children rest hskip ih =>
    intro hdp pm hpm
    rw [collectFiles.eq_def] at hpm
    simp only [hskip, if_true] at hpm
    exact ih hdp pm hpm
  | case3 dp d name readable children rest hskip hrec ihrest ihch =>
    intro hdp pm hpm
    have hlt : d < cfg.depth := hrec.2
    rw [collectFiles.eq_def] at hpm
    simp only [Bool.not_eq_true] at hskip
    simp only [hskip, Bool.false_eq_true, if_false, hrec, and_self, if_true] at hpm
    rcases List.mem_append.mp hpm with hsub | htail
    · have hdp' : ∀ x ∈ dp ++ [name], shouldSkip x = false := by
        intro x hx
        rcases List.mem_append.mp hx with hx | hx
        · exact hdp x hx
        · simp only [List.mem_singleton] at hx
          subst hx
          exact hskip
      by_cases hguard : d + 1 > cfg.depth
      · simp only [if_pos hguard] at hsub
        simp at hsub
      · simp only [if_neg hguard] at hsub
        cases readable with
        | true => exact ihch hdp' pm (by simpa using hsub)
        | false => simp at hsub
    · exact ihrest hdp pm htail
  | case4 dp d name readable children rest hskip hrec ih =>
    intro hdp pm hpm
    rw [collectFiles.eq_def] at hpm
    simp only [Bool.not_eq_true] at hskip
    simp only [hskip, Bool.false_eq_true, if_false, hrec] at hpm
    exact ih hdp pm hpm
  | case5 dp d name rest hprog ih =>
    intro hdp pm hpm
    rw [collectFiles.eq_def] at hpm
    simp only [hprog, if_true] at hpm
    exact ih hdp pm hpm
  | case6 dp d name rest hprog hskip ih =>
    intro hdp pm hpm
    rw [collectFiles.eq_def] at hpm
    simp only [hprog, hskip, if_true, if_false] at hpm
    exact ih hdp pm hpm
  | case7 dp d name rest hprog hskip ih =>
    intro hdp pm hpm
    rw [collectFiles.eq_def] at hpm
    simp only [Bool.not_eq_true] at hskip
    simp only [hprog, hskip, Bool.false_eq_true, if_false] at hpm
    rcases List.mem_cons.mp hpm with rfl | htail
    · exact ⟨hskip, hdp⟩
    · exact ih hdp pm htail

theorem collectTopLevel_skip_invariant (progName : String) :
    ∀ (root : List Entry) (pm : PendingMove),
      pm ∈ collectTopLevel progName root →
      shouldSkip pm.filename = false ∧ pm.dirPath = [] := by
  intro root
  induction root with
  | nil => intro pm hpm; simp [collectTopLevel] at hpm
  | cons e rest ih =>
    intro pm hpm
    cases e with
    | dir n r ch =>
      rw [collectTopLevel] at hpm
      exact ih pm hpm
    | file n =>
      rw [collectTopLevel] at hpm
      by_cases hprog : n = progName ∨ n = "forg"
      · simp only [if_pos hprog] at hpm
        exact ih pm hpm
      · simp only [if_neg hprog] at hpm
        by_cases hskip : shouldSkip n = true
        · simp only [hskip, if_true] at hpm
          exact ih pm hpm
        · simp only [Bool.not_eq_true] at hskip
          simp only [hskip, Bool.false_eq_true, if_false] at hpm
          rcases List.mem_cons.mp hpm with rfl | htail
          · exact ⟨hskip, rfl⟩
          · exact ih pm htail

/-- C8: no pending move — in recursive or non-recursive mode — names a file
that the skip rules reject, and none of the directories on its path below the
working directory is skipped (skipped directories are pruned, so nothing
beneath them contributes a move); `.git`, `node_modules` and every name
starting with `'.'` are skip-rule names. -/
theorem c8_skip_rules :
    (∀ (cfg : Config) (progName : String) (root : List Entry) (pm : PendingMove),
        pm ∈ (collectRoot cfg progName root).1 →
        shouldSkip pm.filename = false ∧ ∀ x ∈ pm.dirPath, shouldSkip x = false) ∧
      (∀ (progName : String) (root : List Entry) (pm : PendingMove),
        pm ∈ collectTopLevel progName root →
        shouldSkip pm.filename = false ∧ pm.dirPath = []) ∧
      shouldSkip ".git" = true ∧ shouldSkip "node_modules" = true ∧
      (∀ (s : String) (cs : List Char), s.data = '.' :: cs → shouldSkip s = true) := by
  refine ⟨?_, collectTopLevel_skip_invariant, by decide, by decide, ?_⟩
  · intro cfg progName root pm hpm
    rw [collectRoot] at hpm
    by_cases hd : 1 > cfg.depth
    · simp only [if_pos hd] at hpm
      simp at hpm
    · simp only [if_neg hd] at hpm
      exact collectFiles_skip_invariant cfg progName [] 1 root (by simp) pm hpm
  · intro s cs h
    simp [shouldSkip, h]

/-- Witness for C8 at a concrete tree containing skipped entries. -/
theorem c8_skip_rules_witness :
    shouldSkip ".git" = true ∧
      (shouldSkip
          (⟨["sub"], "x.txt", "Documents"⟩ : PendingMove).filename = false ∧
        ∀ x ∈ (⟨["sub"], "x.txt", "Documents"⟩ : PendingMove).dirPath,
          shouldSkip x = false) :=
  ⟨c8_skip_rules.2.2.1,
   c8_skip_rules.1 { recursive := true, depth := 2 } "forg"
     [Entry.dir ".git" true [Entry.file "cfg.txt"],
      Entry.dir "sub" true [Entry.file "x.txt"], Entry.file ".hidden"]
     ⟨["sub"], "x.txt", "Documents"⟩
     (by simp [collectRoot, collectFiles, shouldSkip, SKIP_PATTERNS, classify,
       getFileExtension, getCategory, lastDotSplit, toLowerCase, FILE_CATEGORIES])⟩

/-!  ## Depth-bound and frame lemmas (claims C7, C10)  -/

theorem collectFiles_depth_bound (cfg : Config) (progName : String) :
    ∀ (dirPath : List String) (currentDepth : Int) (entries : List Entry),
      currentDepth ≤ cfg.depth →
      ∀ pm ∈ (collectFiles cfg progName dirPath currentDepth entries).1,
        (pm.dirPath.length : Int) ≤ dirPath.length + (cfg.depth - currentDepth) := by
  intro dirPath currentDepth entries
  induction dirPath, currentDepth, entries using collectFiles.induct cfg progName with
  | case1 dp d =>
    intro hd pm hpm
    rw [collectFiles.eq_def] at hpm
    simp at hpm
  | case2 dp d name readable children rest hskip ih =>
    intro hd pm hpm
    rw [collectFiles.eq_def] at hpm
    simp only [hskip, if_true] at hpm
    exact ih hd pm hpm
  | case3 dp d name readable children rest hskip hrec ihrest ihch =>
    intro hd pm hpm
    have hlt : d < cfg.depth := hrec.2
    rw [collectFiles.eq_def] at hpm
    simp only [Bool.not_eq_true] at hskip
    simp only [hskip, Bool.false_eq_true, if_false, hrec, and_self, if_true] at hpm
    rcases List.mem_append.mp hpm with hsub | htail
    · by_cases hguard : d + 1 > cfg.depth
      · simp only [if_pos hguard] at hsub
        simp at hsub
      · simp only [if_neg hguard] at hsub
        cases readable with
        | true =>
          have hb := ihch (by omega) pm (by simpa using hsub)
          simp only [List.length_append, List.length_singleton] at hb
          push_cast at hb ⊢
          omega
        | false => simp at hsub
    · exact ihrest hd pm htail
  | case4 dp d name readable children rest hskip hrec ih =>
    intro hd pm hpm
    rw [collectFiles.eq_def] at hpm
    simp only [Bool.not_eq_true] at hskip
    simp only [hskip, Bool.false_eq_true, if_false, hrec] at hpm
    exact ih hd pm hpm
  | case5 dp d name rest hprog ih =>
    intro hd pm hpm
    rw [collectFiles.eq_def] at hpm
    simp only [hprog, if_true] at hpm
    exact ih hd pm hpm
  | case6 dp d name rest hprog hskip ih =>
    intro hd pm hpm
    rw [collectFiles.eq_def] at hpm
    simp only [hprog, hskip, if_true, if_false] at hpm
    exact ih hd pm hpm
  | case7 dp d name rest hprog hskip ih =>
    intro hd pm hpm
    rw [collectFiles.eq_def] at hpm
    simp only [Bool.not_eq_true] at hskip
    simp only [hprog, hskip, Bool.false_eq_true, if_false] at hpm
    rcases List.mem_cons.mp hpm with rfl | htail
    · simp only []
      omega
    · exact ih hd pm htail

theorem collectFiles_mem_file {cfg : Config} {progName name : String}
    (hprog : ¬(name = progName ∨ name = "forg")) (hskip : shouldSkip name = false) :
    ∀ (dirPath : List String) (currentDepth : Int) (es : List Entry),
      Entry.file name ∈ es →
      (⟨dirPath, name, classify name⟩ : PendingMove) ∈
        (collectFiles cfg progName dirPath currentDepth es).1 := by
  intro dp d es
  induction es with
  | nil => intro h; cases h
  | cons e rest ih =>
    intro hmem
    rcases List.mem_cons.mp hmem with heq | hmem'
    · rw [← heq, collectFiles.eq_def]
      simp [hprog, hskip]
    · cases e with
      | dir n r ch =>
        rw [collectFiles.eq_def]
        simp only []
        split
        · exact ih hmem'
        · split
          · exact List.mem_append_right _ (ih hmem')
          · exact ih hmem'
      | file n =>
        rw [collectFiles.eq_def]
        simp only []
        split
        · exact ih hmem'
        · split
          · exact ih hmem'
          · exact List.mem_cons_of_mem _ (ih hmem')

theorem collectFiles_mem_dir {cfg : Config} {progName s : String} {ch : List Entry}
    (hskip : shouldSkip s = false) (hrec : cfg.recursive = true) :
    ∀ (dirPath : List String) (currentDepth : Int) (es : List Entry) (pm : PendingMove),
      Entry.dir s true ch ∈ es → currentDepth < cfg.depth →
      pm ∈ (collectFiles cfg progName (dirPath ++ [s]) (currentDepth + 1) ch).1 →
      pm ∈ (collectFiles cfg progName dirPath currentDepth es).1 := by
  intro dp d es
  induction es with
  | nil => intro pm h; cases h
  | cons e rest ih =>
    intro pm hmem hd hpm
    rcases List.mem_cons.mp hmem with heq | hmem'
    · rw [← heq, collectFiles.eq_def]
      simp only [hskip, Bool.false_eq_true, if_false]
      rw [if_pos ⟨hrec, hd⟩, if_neg (by omega : ¬(d + 1 > cfg.depth)), if_pos trivial]
      exact List.mem_append_left _ hpm
    · cases e with
      | dir n r ch2 =>
        rw [collectFiles.eq_def]
        simp only []
        split
        · exact ih pm hmem' hd hpm
        · split
          · exact List.mem_append_right _ (ih pm hmem' hd hpm)
          · exact ih pm hmem' hd hpm
      | file n =>
        rw [collectFiles.eq_def]
        simp only []
        split
        · exact ih pm hmem' hd hpm
        · split
          · exact ih pm hmem' hd hpm
          · exact List.mem_cons_of_mem _ (ih pm hmem' hd hpm)

theorem fileExistsAt_nil : ∀ q : List String, fileExistsAt q [] = false := by
  intro q
  match q with
  | [] => rfl
  | [n] => rfl
  | a :: b :: q' => rfl

theorem fileExistsAt_cons_file (a b : String) (q' : List String) (m : String)
    (l : List Entry) :
    fileExistsAt (a :: b :: q') (Entry.file m :: l) = fileExistsAt (a :: b :: q') l := by
  simp [fileExistsAt]

theorem fileExistsAt_cons_dir (a b : String) (q' : List String) (m : String) (r : Bool)
    (ch l : List Entry) :
    fileExistsAt (a :: b :: q') (Entry.dir m r ch :: l) =
      ((m == a) && fileExistsAt (b :: q') ch || fileExistsAt (a :: b :: q') l) := by
  simp [fileExistsAt]

theorem fileExistsAt_append_file (a b : String) (q' : List String) (nm : String) :
    ∀ es : List Entry,
      fileExistsAt (a :: b :: q') (es ++ [Entry.file nm]) = fileExistsAt (a :: b :: q') es := by
  intro es
  induction es with
  | nil => simp [fileExistsAt, fileExistsAt_nil]
  | cons e rest ih =>
    cases e with
    | dir m r ch =>
      rw [List.cons_append, fileExistsAt_cons_dir, fileExistsAt_cons_dir, ih]
    | file m =>
      rw [List.cons_append, fileExistsAt_cons_file, fileExistsAt_cons_file, ih]

theorem fileExistsAt_append_emptyDir (a b : String) (q' : List String) (fn : String)
    (r : Bool) :
    ∀ es : List Entry,
      fileExistsAt (a :: b :: q') (es ++ [Entry.dir fn r []]) =
        fileExistsAt (a :: b :: q') es := by
  intro es
  induction es with
  | nil => simp [fileExistsAt, fileExistsAt_nil]
  | cons e rest ih =>
    cases e with
    | dir m rb ch =>
      rw [List.cons_append, fileExistsAt_cons_dir, fileExistsAt_cons_dir, ih]
    | file m =>
      rw [List.cons_append, fileExistsAt_cons_file, fileExistsAt_cons_file, ih]

theorem fileExistsAt_removeFirstFile (n : String) (a b : String) (q' : List String) :
    ∀ ch : List Entry,
      fileExistsAt (a :: b :: q') (removeFirstFile ch n) = fileExistsAt (a :: b :: q') ch := by
  intro ch
  induction ch with
  | nil => rfl
  | cons e rest ih =>
    cases e with
    | file m =>
      rw [removeFirstFile]
      by_cases hm : m = n
      · rw [if_pos hm, fileExistsAt_cons_file]
      · rw [if_neg hm, fileExistsAt_cons_file, fileExistsAt_cons_file, ih]
    | dir m r ch2 =>
      rw [removeFirstFile, fileExistsAt_cons_dir, fileExistsAt_cons_dir, ih]
      exact fun _ h => Entry.noConfusion h

theorem fileExistsAt_removeFileAt_single (n d : String) (a b c : String)
    (q'' : List String) :
    ∀ es : List Entry,
      fileExistsAt (a :: b :: c :: q'') (removeFileAt [d] n es) =
        fileExistsAt (a :: b :: c :: q'') es := by
  intro es
  induction es with
  | nil => rfl
  | cons e rest ih =>
    rw [removeFileAt, List.map_cons]
    rw [show (List.map _ rest : List Entry) = removeFileAt [d] n rest from rfl]
    cases e with
    | dir m r ch =>
      simp only []
      by_cases hm : m = d
      · rw [if_pos hm, fileExistsAt_cons_dir, fileExistsAt_cons_dir, ih,
          show removeFileAt [] n ch = removeFirstFile ch n from rfl,
          fileExistsAt_removeFirstFile]
      · rw [if_neg hm, fileExistsAt_cons_dir, fileExistsAt_cons_dir, ih]
    | file m =>
      simp only []
      rw [fileExistsAt_cons_file, fileExistsAt_cons_file, ih]

theorem fileExistsAt_removeFileAt_shallow (n : String) (a b c : String)
    (q'' : List String) :
    ∀ dp : List String, dp.length ≤ 1 →
      ∀ es : List Entry,
        fileExistsAt (a :: b :: c :: q'') (removeFileAt dp n es) =
          fileExistsAt (a :: b :: c :: q'') es := by
  intro dp hdp es
  match dp, hdp with
  | [], _ =>
    rw [removeFileAt]
    exact fileExistsAt_removeFirstFile n a b (c :: q'') es
  | [d], _ => exact fileExistsAt_removeFileAt_single n d a b c q'' es
  | d1 :: d2 :: t, h =>
    simp only [List.length_cons] at h
    omega

theorem fileExistsAt_addFileTop (fn nm : String) (a b c : String) (q'' : List String) :
    ∀ es : List Entry,
      fileExistsAt (a :: b :: c :: q'') (addFileTop es fn nm) =
        fileExistsAt (a :: b :: c :: q'') es := by
  intro es
  induction es with
  | nil => rfl
  | cons e rest ih =>
    cases e with
    | dir m r ch =>
      rw [addFileTop]
      by_cases hm : m = fn
      · rw [if_pos hm, fileExistsAt_cons_dir, fileExistsAt_cons_dir,
          fileExistsAt_append_file]
      · rw [if_neg hm, fileExistsAt_cons_dir, fileExistsAt_cons_dir, ih]
    | file m =>
      rw [addFileTop, fileExistsAt_cons_file, fileExistsAt_cons_file, ih]
      exact fun _ _ _ h => Entry.noConfusion h

theorem fileExistsAt_createDirTop {es es' : List Entry} {fn : String}
    (h : createDirTop es fn = some es') (a b : String) (q' : List String) :
    fileExistsAt (a :: b :: q') es' = fileExistsAt (a :: b :: q') es := by
  rw [createDirTop] at h
  rcases hft : findTop es fn with _ | e
  · rw [hft] at h
    simp only [Option.some.injEq] at h
    rw [← h, fileExistsAt_append_emptyDir]
  · rw [hft] at h
    cases e with
    | dir m r ch =>
      simp only [Option.some.injEq] at h
      rw [h]
    | file m => cases h

theorem processMoves_preserves_deep (cfg : Config) (moveFails : List String → Bool)
    (timestamp : Nat) (a b c : String) (q'' : List String) :
    ∀ (pending : List PendingMove) (root : List Entry),
      (∀ pm ∈ pending, pm.dirPath.length ≤ 1) →
      fileExistsAt (a :: b :: c :: q'') (processMoves cfg moveFails timestamp pending root).1 =
        fileExistsAt (a :: b :: c :: q'') root := by
  intro pending
  induction pending with
  | nil => intro root _; rfl
  | cons pm rest ih =>
    intro root hall
    have hpm : pm.dirPath.length ≤ 1 := hall pm (List.mem_cons_self _ _)
    have hrest : ∀ x ∈ rest, x.dirPath.length ≤ 1 :=
      fun x hx => hall x (List.mem_cons_of_mem _ hx)
    rw [processMoves]
    simp only []
    split
    · exact ih root hrest
    · cases hcd : createDirTop root (if cfg.pfx = "" then pm.category
          else cfg.pfx ++ pm.category) with
      | none => exact ih root hrest
      | some root1 =>
        have hfs1 : fileExistsAt (a :: b :: c :: q'') root1 =
            fileExistsAt (a :: b :: c :: q'') root :=
          fileExistsAt_createDirTop hcd a b (c :: q'')
        simp only []
        split
        · rw [ih root1 hrest, hfs1]
        · rw [ih _ hrest, fileExistsAt_addFileTop,
            fileExistsAt_removeFileAt_shallow _ a b c q'' _ hpm, hfs1]

/-- C7: with `--recursive --depth 2`, every pending move originates at depth
at most 2 (at most one directory component below the working directory); a
non-skipped file inside a readable non-skipped top-level directory — a file at
exactly depth 2 — yields a pending move; and every file three or more levels
deep still exists, untouched, after the entire run. -/
theorem c7_depth_two_bound (cfg : Config) (hrec : cfg.recursive = true)
    (hdepth : cfg.depth = 2) (progName : String) (root : List Entry) :
    (∀ pm ∈ (collectRoot cfg progName root).1, pm.dirPath.length ≤ 1) ∧
      (∀ (s f : String) (ch : List Entry),
        Entry.dir s true ch ∈ root → shouldSkip s = false →
        Entry.file f ∈ ch → ¬(f = progName ∨ f = "forg") → shouldSkip f = false →
        (⟨[s], f, classify f⟩ : PendingMove) ∈ (collectRoot cfg progName root).1) ∧
      (∀ (moveFails : List String → Bool) (timestamp : Nat) (p : List String),
        3 ≤ p.length → fileExistsAt p root = true →
        fileExistsAt p (organizeFiles cfg progName moveFails timestamp root).fs = true) := by
  have hnd : ¬(1 > cfg.depth) := by omega
  have h1 : ∀ pm ∈ (collectRoot cfg progName root).1, pm.dirPath.length ≤ 1 := by
    intro pm hpm
    rw [collectRoot, if_neg hnd] at hpm
    have hb := collectFiles_depth_bound cfg progName [] 1 root (by omega) pm hpm
    simp only [List.length_nil] at hb
    omega
  refine ⟨h1, ?_, ?_⟩
  · intro s f ch hdir hss hfile hprog hsf
    rw [collectRoot, if_neg hnd]
    exact collectFiles_mem_dir hss hrec [] 1 root _ hdir (by omega)
      (collectFiles_mem_file hprog hsf ([] ++ [s]) (1 + 1) ch hfile)
  · intro moveFails timestamp p hp hex
    obtain ⟨a, b, c, q'', rfl⟩ : ∃ a b c q'', p = a :: b :: c :: q'' := by
      match p, hp with
      | a :: b :: c :: q'', _ => exact ⟨a, b, c, q'', rfl⟩
    simp only [organizeFiles, hrec, if_true]
    split
    · exact hex
    · rw [processMoves_preserves_deep cfg moveFails timestamp a b c q''
        (collectRoot cfg progName root).1 root h1]
      exact hex

/-- Witness for C7 on a concrete tree with a depth-2 file and a depth-3
file. -/
theorem c7_depth_two_bound_witness :
    (⟨["sub"], "x.txt", classify "x.txt"⟩ : PendingMove) ∈
        (collectRoot { recursive := true, depth := 2 } "forg"
          [Entry.dir "sub" true
            [Entry.file "x.txt", Entry.dir "deep" true [Entry.file "y.txt"]]]).1 ∧
      fileExistsAt ["sub", "deep", "y.txt"]
        (organizeFiles { recursive := true, depth := 2 } "forg" (fun _ => false) 0
          [Entry.dir "sub" true
            [Entry.file "x.txt", Entry.dir "deep" true [Entry.file "y.txt"]]]).fs = true := by
  have h := c7_depth_two_bound { recursive := true, depth := 2 } rfl rfl "forg"
    [Entry.dir "sub" true [Entry.file "x.txt", Entry.dir "deep" true [Entry.file "y.txt"]]]
  exact ⟨h.2.1 "sub" "x.txt" [Entry.file "x.txt", Entry.dir "deep" true [Entry.file "y.txt"]]
      (List.mem_cons_self _ _) (by decide) (List.mem_cons_self _ _) (by decide) (by decide),
    h.2.2 (fun _ => false) 0 ["sub", "deep", "y.txt"] (by decide) (by decide)⟩

/-- C10: destinations are always computed under the working directory.  For
any prefix, any (non-skipped) subdirectory name `s` and file name `f`, running
recursively at depth 2 on a tree whose only file is `s/f` relocates the file
up into the top-level folder `prefix ++ category` of the working directory —
the subdirectory is left empty and no category folder is created beside the
file. -/
theorem c10_destination_under_working_dir
    (pfx s f progName : String) (timestamp : Nat)
    (hss : shouldSkip s = false) (hsf : shouldSkip f = false)
    (hprog : ¬(f = progName ∨ f = "forg"))
    (hfolder : (if pfx = "" then classify f else pfx ++ classify f) ≠ s) :
    organizeFiles { pfx := pfx, recursive := true, depth := 2 } progName
        (fun _ => false) timestamp [Entry.dir s true [Entry.file f]] =
      ⟨[Entry.dir s true [],
        Entry.dir (if pfx = "" then classify f else pfx ++ classify f) true
          [Entry.file f]],
       0, 0, 0⟩ := by
  have hns : ¬(s = (if pfx = "" then classify f else pfx ++ classify f)) :=
    fun h => hfolder h.symm
  simp [organizeFiles, collectRoot, collectFiles, processMoves, createDirTop, findTop,
    entryName, contentsOfTop, getUniquePath, addFileTop, removeFileAt, removeFirstFile,
    hss, hsf, hprog, hfolder, hns]

/-- Witness for C10 at a concrete prefix, subdirectory and file. -/
theorem c10_destination_under_working_dir_witness :
    organizeFiles { pfx := "pre_", recursive := true, depth := 2 } "forg"
        (fun _ => false) 0 [Entry.dir "sub" true [Entry.file "a.txt"]] =
      ⟨[Entry.dir "sub" true [],
        Entry.dir (if "pre_" = "" then classify "a.txt" else "pre_" ++ classify "a.txt")
          true [Entry.file "a.txt"]],
       0, 0, 0⟩ :=
  c10_destination_under_working_dir "pre_" "sub" "a.txt" "forg" 0
    (by decide) (by decide) (by decide) (by decide)

end Forg
